import Mathlib

/-!
CSV-to-JSON translation pipeline.

A shallow embedding of `src/process-translations.js` and of its variant
`src/demo-read-csv-main/process-translations.js`.

Modelling conventions.

* A JavaScript ordinary object is the list of its own enumerable string-keyed
  properties in insertion order.  A JavaScript engine enumerates the properties
  whose names are array indices first; that enumeration order is a function of the
  insertion-ordered list, so equal lists denote equal objects.  The `locales` object
  has no array-index keys (its keys are locale identifiers).
* A parsed row (what `csv-parser` pushes with `headers: false`) is the object
  `{0: cell0, 1: cell1, ...}`; it is the list of its cells, and `Object.entries(row)`
  is the list of `(position, cell)` pairs in ascending position.
* A cell is a string; `!value` holds exactly for the empty string and for
  `undefined` (an absent cell).
* A `TypeError` thrown by the reduce callback is the result `none`: Highland's
  `reduce` then pushes the error and ends the stream without emitting `locales`.
-/

namespace ProcessTranslations

/-! ## Ordinary objects -/

/-- Own property lookup `o[k]` (the prototype chain is not consulted: every key read
by the program is either an own property or absent from `Object.prototype`). -/
def getProp {α : Type} : List (String × α) → String → Option α
  | [], _ => none
  | (k', v') :: rest, k => if k' = k then some v' else getProp rest k

/-- Overwrite the value of the own property `k`, keeping its place. -/
def putProp {α : Type} : List (String × α) → String → α → List (String × α)
  | [], _, _ => []
  | (k', v') :: rest, k, v =>
    if k' = k then (k', v) :: putProp rest k v else (k', v') :: putProp rest k v

/-- Property definition as done by an object literal with a spread and a computed
key, `{ ...o, [k]: v }`: an existing own property keeps its place and takes the new
value, a new one is appended. -/
def defineProp {α : Type} (o : List (String × α)) (k : String) (v : α) : List (String × α) :=
  if (getProp o k).isSome then putProp o k v else o ++ [(k, v)]

/-- A locale document: translation key ↦ translated string. -/
abbrev Doc := List (String × String)

/-- The accumulator of the reduce: locale identifier ↦ document. -/
abbrev Locales := List (String × Doc)

/-- A parsed CSV record. -/
abbrev Row := List String

/-- Assignment `d[k] = v` of a string `v` (ECMAScript `[[Set]]`) on an ordinary object
whose prototype is `Object.prototype`, as performed by `Object.assign(d, { [k]: v })`
and by `d.localeCode = v`.  An own property is overwritten.  Otherwise the prototype
chain is searched: `Object.prototype` has exactly one accessor property, `__proto__`,
whose setter returns without effect when handed a value that is neither an object nor
null; every other key creates a new own property. -/
def setProp (d : Doc) (k v : String) : Doc :=
  if (getProp d k).isSome then putProp d k v
  else if k = "__proto__" then d
  else d ++ [(k, v)]

/-- The pairs `Object.entries(row)` from position `i` on. -/
def entriesFrom : Nat → List String → List (Nat × String)
  | _, [] => []
  | i, c :: cs => (i, c) :: entriesFrom (i + 1) cs

/-- The cell of a row at a position, an absent cell read as the empty string (both
are falsy and are treated alike by the program). -/
def cell (row : Row) (p : Nat) : String := row.getD p ""

/-! ## `src/process-translations.js` -/

/-- The column position → locale identifier table. -/
def localeMapping : List (Nat × String) :=
  [(1, "am"), (2, "ar"), (3, "ca"), (4, "chk"), (5, "de"), (6, "en"), (7, "es"),
   (8, "eu"), (9, "fa"), (10, "fj"), (11, "fr"), (12, "gu"), (13, "he"), (14, "hi"),
   (15, "hmn"), (16, "ht"), (17, "hy"), (18, "it"), (19, "ja"), (20, "kar"), (21, "km"),
   (22, "ko"), (23, "lo"), (24, "mam"), (25, "mh"), (26, "ml"), (27, "mr"), (28, "mxb"),
   (29, "my"), (30, "ne"), (31, "om"), (32, "pa"), (33, "prs"), (34, "ps"), (35, "pt-BR"),
   (36, "ro"), (37, "ru"), (38, "sm"), (39, "so"), (40, "sw"), (41, "ta"), (42, "te"),
   (43, "th"), (44, "ti"), (45, "tl"), (46, "to"), (47, "tr"), (48, "uk"), (49, "ur"),
   (50, "vi"), (51, "zh"), (52, "zh-TW")]

/-- The locale identifiers `Object.values(localeMapping)`, in key order. -/
def localeNames : List String := localeMapping.map Prod.snd

/-- The initial documents `locales`: `Object.values(localeMapping).reduce((memo, locale) =>
({ ...memo, [locale]: {} }), {})`. -/
def locales : Locales :=
  localeNames.foldl (fun memo locale => defineProp memo locale []) []

/-- The property key used in `locales[localeMapping[position]]`: the mapped locale, or
the string `"undefined"` when the position is not a key of `localeMapping`. -/
def localeKey (position : Nat) : String :=
  (localeMapping.lookup position).getD "undefined"

/-- One pass of the body of the `for` loop that writes:
`Object.assign(locales[localeMapping[position]], { [field]: value })`.
`Object.assign` throws a `TypeError` when its target is `undefined`. -/
def assignCell (acc : Locales) (position : Nat) (field value : String) : Option Locales :=
  match getProp acc (localeKey position) with
  | none => none
  | some doc => some (putProp acc (localeKey position) (setProp doc field value))

/-- The `for (let [position, value] of Object.entries(row))` loop. -/
def forEntries (field : String) : Locales → List (Nat × String) → Option Locales
  | acc, [] => some acc
  | acc, (position, value) :: rest =>
    if position = 0 ∨ value = "" then forEntries field acc rest
    else
      match assignCell acc position field value with
      | none => none
      | some acc' => forEntries field acc' rest

/-- The reduce callback `(locales, row) => ...`. -/
def step (acc : Locales) (row : Row) : Option Locales :=
  match row[0]? with
  | none => some acc
  | some field =>
    if field = "" then some acc
    else forEntries field acc (entriesFrom 0 row)

/-- Highland's `reduce(z, f)` over the rows: the fold stops at the first throw. -/
def reduceRows : Locales → List Row → Option Locales
  | acc, [] => some acc
  | acc, row :: rest =>
    match step acc row with
    | none => none
    | some acc' => reduceRows acc' rest

/-- The `for (const locale of Object.keys(locales)) locales[locale].localeCode = locale`
loop of the finalisation (each key of an object occurs once, so the loop visits each
entry once). -/
def tagLocales (acc : Locales) : Locales :=
  acc.map (fun e => (e.1, setProp e.2 "localeCode" e.1))

/-- The finalisation `flatMap` callback: tag every document, then `Object.values`. -/
def finalise (acc : Locales) : List Doc :=
  (tagLocales acc).map Prod.snd

/-- Aggregation followed by finalisation: the documents emitted for a row sequence. -/
def run (rows : List Row) : Option (List Doc) :=
  (reduceRows locales rows).map finalise

/-- The output directory of an emitted document, `${TARGET_DIR}/${locale.localeCode}`
with `TARGET_DIR = ${__dirname}/public/locales/`. -/
def outputDir (dirname : String) (doc : Doc) : String :=
  dirname ++ "/public/locales/" ++ "/" ++ (getProp doc "localeCode").getD "undefined"

/-- An accumulator of locale documents: an object whose keys are exactly the mapped
locale identifiers (as `locales` is, and as every accumulator reached from it is). -/
def IsLocales (acc : Locales) : Prop := acc.map Prod.fst = localeNames

/-- The document stored under a locale identifier (`{}` if there is none). -/
def docOf (acc : Locales) (loc : String) : Doc := (getProp acc loc).getD []

/-- The cell at position `p` of a row whose cells `cs` start at position `i`. -/
def cellFrom (i : Nat) (cs : List String) (p : Nat) : String :=
  if i ≤ p then cs.getD (p - i) "" else ""

/-- Every non-empty cell of the row at a position other than the key column lies at
a position of `localeMapping`. -/
def RowMapped (row : Row) : Prop :=
  ∀ e ∈ entriesFrom 0 row, e.1 ≠ 0 → e.2 ≠ "" → (localeMapping.lookup e.1).isSome = true

instance (row : Row) : Decidable (RowMapped row) := by
  unfold RowMapped; infer_instance

/-- What one row does to the document of the locale mapped from position `p`. -/
def writeRow (p : Nat) (d : Doc) (row : Row) : Doc :=
  if cell row 0 ≠ "" ∧ cell row p ≠ "" then setProp d (cell row 0) (cell row p) else d

/-- The row has the non-empty key cell `k` and a non-empty cell at position `p`. -/
def Populates (row : Row) (p : Nat) (k : String) : Prop :=
  cell row 0 = k ∧ k ≠ "" ∧ cell row p ≠ ""

instance (row : Row) (p : Nat) (k : String) : Decidable (Populates row p k) := by
  unfold Populates; infer_instance

instance (acc : Locales) : Decidable (IsLocales acc) := by
  unfold IsLocales; infer_instance

/-! ### The row ingestor: `split('\n')`, `drop(IGNORE_ROWS)`, `intersperse('\n')` -/

/-- The number of leading lines the script discards. -/
def IGNORE_ROWS : Nat := 1

/-- The pieces `buffer.split(/\r?\n/)` of a text, as `String.prototype.split` gives them
for the separator pattern `/\r?\n/`: a separator is a line feed together with the
carriage return directly before it, if there is one.  A carriage return that is
directly followed by a line feed therefore belongs to the separator and to no piece. A
text without separator is one piece; a trailing separator leaves a last empty piece. -/
def regexSplit : List Char → List (List Char)
  | [] => [[]]
  | c :: cs =>
    if c = '\n' then [] :: regexSplit cs
    else if c = '\r' ∧ cs.head? = some '\n' then regexSplit cs
    else
      match regexSplit cs with
      | [] => [[c]]
      | l :: ls => (c :: l) :: ls

/-- Highland's `split()` seen on the whole text of the stream.  The method takes no
parameter (the argument `'\n'` of the script is ignored) and is `splitBy(/\r?\n/)`:
every piece but the last is pushed as the data arrives and the last piece is pushed at
the end of the stream, provided some data arrived.  A stream without any character
delivers no data (a file stream of an empty file ends at once), and nothing is
pushed. -/
def split (s : List Char) : List (List Char) :=
  if s = [] then [] else regexSplit s

/-- The chunks handed to the CSV parser: `stream.split('\n').drop(n).intersperse('\n')`
(Highland's `drop` discards the first `n` values, `intersperse` puts the separator
between every two values). -/
def ingest (n : Nat) (s : List Char) : List (List Char) :=
  List.intersperse ['\n'] ((split s).drop n)

/-- The text the CSV parser reads: the chunks one after the other. -/
def parserInput (n : Nat) (s : List Char) : List Char :=
  (ingest n s).flatten

/-- The text `l_0 \n l_1 \n ... \n l_m` made of the lines `l_0, ..., l_m`. -/
def joinLines : List (List Char) → List Char
  | [] => []
  | [l] => l
  | l :: l' :: rest => l ++ '\n' :: joinLines (l' :: rest)

/-- A line without its last character when that character is a carriage return. -/
def dropTrailingCR : List Char → List Char
  | [] => []
  | [c] => if c = '\r' then [] else [c]
  | c :: c' :: cs => c :: dropTrailingCR (c' :: cs)

/-- The lines `l_0, ..., l_m` of a text, each line that is followed by a newline (all
but `l_m`) without the carriage return directly before that newline. -/
def stripCRs : List (List Char) → List (List Char)
  | [] => []
  | [l] => [l]
  | l :: l' :: rest => dropTrailingCR l :: stripCRs (l' :: rest)

end ProcessTranslations

/-! ## `src/demo-read-csv-main/process-translations.js` -/

namespace DemoReadCsvMain

open ProcessTranslations (getProp putProp defineProp setProp entriesFrom Doc Locales Row)

/-- The column position → locale identifier table of the variant. -/
def localeMapping : List (Nat × String) :=
  [(2, "am"), (3, "ar"), (4, "chk"), (5, "de"), (6, "en"), (7, "es"), (8, "fa"),
   (9, "fj"), (10, "fr"), (11, "gu"), (12, "hi"), (13, "hmn"), (14, "ja"), (15, "kar"),
   (16, "km"), (17, "ko"), (18, "lo"), (19, "mam"), (20, "mh"), (21, "mr"), (22, "mxb"),
   (23, "my"), (24, "ne"), (25, "om"), (26, "pa"), (27, "prs"), (28, "ps"), (29, "pt-BR"),
   (30, "ro"), (31, "ru"), (32, "sm"), (33, "so"), (34, "sw"), (35, "ta"), (36, "te"),
   (37, "th"), (38, "ti"), (39, "tl"), (40, "to"), (41, "tr"), (42, "uk"), (43, "ur"),
   (44, "vi"), (45, "zh"), (46, "zh-tw")]

/-- The number of leading lines the variant discards. -/
def IGNORE_ROWS : Nat := 7

/-- The initial documents `locales` of the variant: `Object.values(localeMapping).reduce(
(memo, locale) => ({ ...memo, [locale]: {} }), {})`. -/
def locales : Locales :=
  (localeMapping.map Prod.snd).foldl (fun memo locale => defineProp memo locale []) []

/-- The property key used in `locales[localeMapping[position]]`. -/
def localeKey (position : Nat) : String :=
  (localeMapping.lookup position).getD "undefined"

/-- The write `Object.assign(locales[localeMapping[position]], { [field]: value })`,
which throws a `TypeError` when its target is `undefined`. -/
def assignCell (acc : Locales) (position : Nat) (field value : String) : Option Locales :=
  match getProp acc (localeKey position) with
  | none => none
  | some doc => some (putProp acc (localeKey position) (setProp doc field value))

/-- The `for` loop of the variant: positions `0` and `1` and blank cells are skipped. -/
def forEntries (field : String) : Locales → List (Nat × String) → Option Locales
  | acc, [] => some acc
  | acc, (position, value) :: rest =>
    if position = 0 ∨ position = 1 ∨ value = "" then forEntries field acc rest
    else
      match assignCell acc position field value with
      | none => none
      | some acc' => forEntries field acc' rest

/-- The reduce callback of the variant: the key is `row['1']`. -/
def step (acc : Locales) (row : Row) : Option Locales :=
  match row[1]? with
  | none => some acc
  | some field =>
    if field = "" then some acc
    else forEntries field acc (entriesFrom 0 row)

end DemoReadCsvMain

namespace ProcessTranslations

/-! ## Lemmas on objects -/

theorem getProp_putProp {α : Type} (o : List (String × α)) (k k' : String) (v : α) :
    getProp (putProp o k v) k' = if k' = k then (getProp o k).map (fun _ => v) else getProp o k' := by
  induction o with
  | nil => simp [getProp, putProp]
  | cons e rest ih =>
    obtain ⟨k0, v0⟩ := e
    by_cases h0 : k0 = k
    · by_cases h1 : k' = k
      · simp [getProp, putProp, h0, h1]
      · have h2 : ¬ k = k' := fun h => h1 h.symm
        simp [getProp, putProp, h0, h1, h2, ih]
    · by_cases h1 : k' = k
      · subst h1
        simp [getProp, putProp, h0, ih]
      · simp only [putProp, h0, if_false, getProp, ih, h1]

theorem keys_putProp {α : Type} (o : List (String × α)) (k : String) (v : α) :
    (putProp o k v).map Prod.fst = o.map Prod.fst := by
  induction o with
  | nil => simp [putProp]
  | cons e rest ih =>
    obtain ⟨k0, v0⟩ := e
    by_cases h0 : k0 = k <;> simp [putProp, h0, ih]

theorem getProp_eq_none_iff {α : Type} (o : List (String × α)) (k : String) :
    getProp o k = none ↔ k ∉ o.map Prod.fst := by
  induction o with
  | nil => simp [getProp]
  | cons e rest ih =>
    obtain ⟨k0, v0⟩ := e
    by_cases h0 : k0 = k
    · simp [getProp, h0]
    · have h2 : ¬ k = k0 := fun h => h0 h.symm
      simp only [getProp, h0, if_false, ih, List.map_cons, List.mem_cons, h2, false_or]

theorem getProp_append_single {α : Type} (o : List (String × α)) (k k' : String) (v : α) :
    getProp (o ++ [(k, v)]) k' =
      match getProp o k' with
      | some x => some x
      | none => if k = k' then some v else none := by
  induction o with
  | nil => simp [getProp]
  | cons e rest ih =>
    obtain ⟨k0, v0⟩ := e
    by_cases h0 : k0 = k'
    · simp [getProp, h0]
    · simpa [getProp, h0] using ih

theorem getProp_setProp (d : Doc) (k v k' : String) :
    getProp (setProp d k v) k' =
      if k' = k ∧ (k ≠ "__proto__" ∨ (getProp d k).isSome) then some v else getProp d k' := by
  unfold setProp
  by_cases hs : (getProp d k).isSome
  · obtain ⟨x, hx⟩ := Option.isSome_iff_exists.mp hs
    by_cases h1 : k' = k
    · simp [getProp_putProp, h1, hx]
    · simp [getProp_putProp, h1, hx]
  · have hn : getProp d k = none := by simpa using hs
    by_cases hp : k = "__proto__"
    · subst hp
      simp [hn]
    · by_cases h1 : k' = k
      · subst h1
        simp [hs, hp, getProp_append_single, hn]
      · have h2 : ¬ k = k' := fun h => h1 h.symm
        simp [hs, hp, getProp_append_single, h1, h2]
        cases getProp d k' <;> rfl

/-! ## Facts about the table -/

set_option maxRecDepth 1000000 in
theorem lookup_of_mem : ∀ e ∈ localeMapping, localeMapping.lookup e.1 = some e.2 := by decide

set_option maxRecDepth 1000000 in
theorem locale_injective :
    ∀ e ∈ localeMapping, ∀ e' ∈ localeMapping, e.2 = e'.2 → e.1 = e'.1 := by decide

set_option maxRecDepth 1000000 in
theorem position_ne_zero : ∀ e ∈ localeMapping, e.1 ≠ 0 := by decide

set_option maxRecDepth 1000000 in
theorem undefined_not_locale : "undefined" ∉ localeNames := by decide

set_option maxRecDepth 1000000 in
theorem locales_eq : locales = localeNames.map (fun l => (l, [])) := by decide

theorem mem_of_lookup_eq_some {β : Type} (l : List (Nat × β)) (a : Nat) (b : β)
    (h : l.lookup a = some b) : (a, b) ∈ l := by
  induction l with
  | nil => simp at h
  | cons e rest ih =>
    obtain ⟨k, v⟩ := e
    by_cases hk : a = k
    · subst hk
      simp [List.lookup_cons] at h
      simp [h]
    · have hb : (a == k) = false := by simpa using hk
      simp only [List.lookup_cons, hb] at h
      exact List.mem_cons_of_mem _ (ih h)

theorem mapped_iff (p : Nat) (loc : String) :
    (p, loc) ∈ localeMapping ↔ localeMapping.lookup p = some loc :=
  ⟨fun h => lookup_of_mem (p, loc) h, mem_of_lookup_eq_some _ _ _⟩

theorem localeKey_of_mem {p : Nat} {loc : String} (h : (p, loc) ∈ localeMapping) :
    localeKey p = loc := by
  simp [localeKey, (mapped_iff p loc).mp h]

theorem mem_localeNames {p : Nat} {loc : String} (h : (p, loc) ∈ localeMapping) :
    loc ∈ localeNames :=
  List.mem_map.mpr ⟨(p, loc), h, rfl⟩

theorem isLocales_locales : IsLocales locales := by
  simp [IsLocales, locales_eq, Function.comp_def]

theorem docOf_locales (loc : String) : docOf locales loc = [] := by
  have h : ∀ (ns : List String), (getProp (ns.map (fun l => (l, ([] : Doc)))) loc).getD [] = [] := by
    intro ns
    induction ns with
    | nil => simp [getProp]
    | cons n rest ih =>
      by_cases hn : n = loc
      · simp [getProp, hn]
      · simpa [getProp, hn] using ih
  simpa [docOf, locales_eq] using h localeNames

theorem getProp_of_isLocales {acc : Locales} (hacc : IsLocales acc) {loc : String}
    (hloc : loc ∈ localeNames) : getProp acc loc = some (docOf acc loc) := by
  cases hg : getProp acc loc with
  | none =>
    have := (getProp_eq_none_iff acc loc).mp hg
    rw [hacc] at this
    exact absurd hloc this
  | some d => simp [docOf, hg]

theorem isLocales_putProp {acc : Locales} (hacc : IsLocales acc) (loc : String) (d : Doc) :
    IsLocales (putProp acc loc d) := by
  unfold IsLocales at *
  rw [keys_putProp, hacc]

theorem docOf_putProp {acc : Locales} {loc : String} (hloc : (getProp acc loc).isSome)
    (d : Doc) (loc' : String) :
    docOf (putProp acc loc d) loc' = if loc' = loc then d else docOf acc loc' := by
  obtain ⟨x, hx⟩ := Option.isSome_iff_exists.mp hloc
  by_cases h : loc' = loc
  · simp [docOf, getProp_putProp, h, hx]
  · simp [docOf, getProp_putProp, h]

/-! ## The per-cell loop -/

theorem cellFrom_nil (i p : Nat) : cellFrom i [] p = "" := by
  simp [cellFrom]

theorem cellFrom_cons (i : Nat) (c : String) (cs : List String) (p : Nat) :
    cellFrom i (c :: cs) p = if p = i then c else cellFrom (i + 1) cs p := by
  unfold cellFrom
  by_cases h1 : p = i
  · subst h1; simp
  · by_cases h2 : i ≤ p
    · have h3 : i + 1 ≤ p := by omega
      obtain ⟨n, hn⟩ : ∃ n, p - i = n + 1 := ⟨p - i - 1, by omega⟩
      have h4 : p - (i + 1) = n := by omega
      simp [h1, h2, h3, hn, h4]
    · have h3 : ¬ i + 1 ≤ p := by omega
      simp [h1, h2, h3]

theorem cell_eq_cellFrom (row : Row) (p : Nat) : cell row p = cellFrom 0 row p := by
  simp [cell, cellFrom]

theorem cellFrom_succ_self (i : Nat) (cs : List String) : cellFrom (i + 1) cs i = "" := by
  simp [cellFrom]

theorem assignCell_of_mem {acc : Locales} (hacc : IsLocales acc) {p : Nat} {loc : String}
    (h : (p, loc) ∈ localeMapping) (field value : String) :
    assignCell acc p field value =
      some (putProp acc loc (setProp (docOf acc loc) field value)) := by
  simp [assignCell, localeKey_of_mem h, getProp_of_isLocales hacc (mem_localeNames h)]

theorem assignCell_unmapped {acc : Locales} (hacc : IsLocales acc) {p : Nat}
    (h : localeMapping.lookup p = none) (field value : String) :
    assignCell acc p field value = none := by
  have hk : localeKey p = "undefined" := by simp [localeKey, h]
  have hg : getProp acc "undefined" = none := by
    rw [getProp_eq_none_iff, hacc]; exact undefined_not_locale
  simp [assignCell, hk, hg]

theorem forEntries_spec (field : String) (cs : List String) :
    ∀ (i : Nat) (acc acc' : Locales), IsLocales acc →
      forEntries field acc (entriesFrom i cs) = some acc' →
      IsLocales acc' ∧ ∀ p loc, (p, loc) ∈ localeMapping →
        docOf acc' loc =
          if cellFrom i cs p ≠ "" then setProp (docOf acc loc) field (cellFrom i cs p)
          else docOf acc loc := by
  induction cs with
  | nil =>
    intro i acc acc' hacc h
    simp only [entriesFrom, forEntries, Option.some.injEq] at h
    subst h
    exact ⟨hacc, fun p loc _ => by simp [cellFrom_nil]⟩
  | cons c cs ih =>
    intro i acc acc' hacc h
    simp only [entriesFrom, forEntries] at h
    by_cases hsk : i = 0 ∨ c = ""
    · rw [if_pos hsk] at h
      obtain ⟨h1, h2⟩ := ih (i + 1) acc acc' hacc h
      refine ⟨h1, fun p loc hm => ?_⟩
      rw [h2 p loc hm, cellFrom_cons]
      by_cases hp : p = i
      · subst hp
        have hc : c = "" := by
          rcases hsk with h0 | hc
          · exact absurd h0 (position_ne_zero _ hm)
          · exact hc
        simp [cellFrom_succ_self, hc]
      · simp [hp]
    · rw [if_neg hsk] at h
      have hi : i ≠ 0 := fun h0 => hsk (Or.inl h0)
      have hc : c ≠ "" := fun h0 => hsk (Or.inr h0)
      cases hl : localeMapping.lookup i with
      | none =>
        rw [assignCell_unmapped hacc hl] at h
        simp at h
      | some li =>
        have hmi : (i, li) ∈ localeMapping := (mapped_iff i li).mpr hl
        rw [assignCell_of_mem hacc hmi] at h
        simp only at h
        have hacc1 := isLocales_putProp hacc li (setProp (docOf acc li) field c)
        obtain ⟨h1, h2⟩ := ih (i + 1) _ acc' hacc1 h
        refine ⟨h1, fun p loc hm => ?_⟩
        have hsome : (getProp acc li).isSome := by
          rw [getProp_of_isLocales hacc (mem_localeNames hmi)]; rfl
        rw [h2 p loc hm, cellFrom_cons, docOf_putProp hsome]
        by_cases hp : p = i
        · subst hp
          have hloc : loc = li := by
            have := (mapped_iff p loc).mp hm
            rw [hl] at this
            exact (Option.some.inj this).symm
          simp [cellFrom_succ_self, hloc, hc]
        · have hloc : loc ≠ li := by
            intro hEq
            subst hEq
            exact hp (locale_injective _ hm _ hmi rfl)
          simp [hp, hloc]

theorem forEntries_complete (field : String) (cs : List String) :
    ∀ (i : Nat) (acc : Locales), IsLocales acc →
      (∀ e ∈ entriesFrom i cs, e.1 ≠ 0 → e.2 ≠ "" → (localeMapping.lookup e.1).isSome = true) →
      ∃ acc', forEntries field acc (entriesFrom i cs) = some acc' := by
  induction cs with
  | nil => intro i acc _ _; exact ⟨acc, rfl⟩
  | cons c cs ih =>
    intro i acc hacc hall
    simp only [entriesFrom, forEntries]
    have hrest : ∀ e ∈ entriesFrom (i + 1) cs, e.1 ≠ 0 → e.2 ≠ "" →
        (localeMapping.lookup e.1).isSome = true :=
      fun e he => hall e (by simp [entriesFrom, he])
    by_cases hsk : i = 0 ∨ c = ""
    · rw [if_pos hsk]
      exact ih (i + 1) acc hacc hrest
    · rw [if_neg hsk]
      have hi : i ≠ 0 := fun h0 => hsk (Or.inl h0)
      have hc : c ≠ "" := fun h0 => hsk (Or.inr h0)
      have hm := hall (i, c) (by simp [entriesFrom]) hi hc
      obtain ⟨li, hl⟩ := Option.isSome_iff_exists.mp hm
      have hmi : (i, li) ∈ localeMapping := (mapped_iff i li).mpr hl
      rw [assignCell_of_mem hacc hmi]
      exact ih (i + 1) _ (isLocales_putProp hacc li _) hrest

theorem forEntries_fail (field : String) (cs : List String) :
    ∀ (i : Nat) (acc : Locales), IsLocales acc →
      (∃ e ∈ entriesFrom i cs, e.1 ≠ 0 ∧ e.2 ≠ "" ∧ localeMapping.lookup e.1 = none) →
      forEntries field acc (entriesFrom i cs) = none := by
  induction cs with
  | nil => intro i acc _ h; simp [entriesFrom] at h
  | cons c cs ih =>
    intro i acc hacc hex
    simp only [entriesFrom, forEntries]
    by_cases hsk : i = 0 ∨ c = ""
    · rw [if_pos hsk]
      apply ih (i + 1) acc hacc
      obtain ⟨e, he, h0, h1, h2⟩ := hex
      simp only [entriesFrom, List.mem_cons] at he
      rcases he with he | he
      · subst he
        rcases hsk with h | h
        · exact absurd h h0
        · exact absurd h h1
      · exact ⟨e, he, h0, h1, h2⟩
    · rw [if_neg hsk]
      cases hl : localeMapping.lookup i with
      | none => rw [assignCell_unmapped hacc hl]
      | some li =>
        have hmi : (i, li) ∈ localeMapping := (mapped_iff i li).mpr hl
        rw [assignCell_of_mem hacc hmi]
        simp only
        apply ih (i + 1) _ (isLocales_putProp hacc li _)
        obtain ⟨e, he, h0, h1, h2⟩ := hex
        simp only [entriesFrom, List.mem_cons] at he
        rcases he with he | he
        · subst he
          simp only at h2
          rw [hl] at h2
          simp at h2
        · exact ⟨e, he, h0, h1, h2⟩

theorem mem_entriesFrom (cs : List String) :
    ∀ (i p : Nat), cellFrom i cs p ≠ "" → (p, cellFrom i cs p) ∈ entriesFrom i cs := by
  induction cs with
  | nil => intro i p h; simp [cellFrom_nil] at h
  | cons c cs ih =>
    intro i p h
    rw [cellFrom_cons] at h ⊢
    by_cases hp : p = i
    · subst hp; simp [entriesFrom]
    · simp only [hp, if_false] at h ⊢
      exact List.mem_cons_of_mem _ (ih (i + 1) p h)

/-! ## The reduce callback and the fold -/

theorem step_of_blank_key (acc : Locales) (row : Row) (h : cell row 0 = "") :
    step acc row = some acc := by
  unfold step
  cases row with
  | nil => rfl
  | cons c cs =>
    have hc : c = "" := by simpa [cell] using h
    simp [hc]

theorem step_of_key (acc : Locales) (row : Row) (h : cell row 0 ≠ "") :
    step acc row = forEntries (cell row 0) acc (entriesFrom 0 row) := by
  unfold step
  cases row with
  | nil => simp [cell] at h
  | cons c cs =>
    have hc : c ≠ "" := by simpa [cell] using h
    simp [hc, cell]

theorem step_spec {acc acc' : Locales} {row : Row} (hacc : IsLocales acc)
    (h : step acc row = some acc') :
    IsLocales acc' ∧ ∀ p loc, (p, loc) ∈ localeMapping →
      docOf acc' loc = writeRow p (docOf acc loc) row := by
  by_cases hk : cell row 0 = ""
  · rw [step_of_blank_key acc row hk] at h
    cases h
    exact ⟨hacc, fun p loc _ => by simp [writeRow, hk]⟩
  · rw [step_of_key acc row hk] at h
    obtain ⟨h1, h2⟩ := forEntries_spec _ row 0 acc acc' hacc h
    refine ⟨h1, fun p loc hm => ?_⟩
    rw [h2 p loc hm, ← cell_eq_cellFrom]
    by_cases hp : cell row p = ""
    · simp [writeRow, hp]
    · simp [writeRow, hk, hp]

theorem step_complete {acc : Locales} {row : Row} (hacc : IsLocales acc)
    (hrow : RowMapped row) : ∃ acc', step acc row = some acc' := by
  by_cases hk : cell row 0 = ""
  · exact ⟨acc, step_of_blank_key acc row hk⟩
  · rw [step_of_key acc row hk]
    exact forEntries_complete _ row 0 acc hacc hrow

theorem reduceRows_spec (rows : List Row) :
    ∀ (acc acc' : Locales), IsLocales acc → reduceRows acc rows = some acc' →
      IsLocales acc' ∧ ∀ p loc, (p, loc) ∈ localeMapping →
        docOf acc' loc = rows.foldl (writeRow p) (docOf acc loc) := by
  induction rows with
  | nil =>
    intro acc acc' hacc h
    simp only [reduceRows, Option.some.injEq] at h
    subst h
    exact ⟨hacc, fun _ _ _ => rfl⟩
  | cons r rest ih =>
    intro acc acc' hacc h
    simp only [reduceRows] at h
    cases hs : step acc r with
    | none => simp [hs] at h
    | some acc1 =>
      simp only [hs] at h
      obtain ⟨ha1, hd1⟩ := step_spec hacc hs
      obtain ⟨ha2, hd2⟩ := ih acc1 acc' ha1 h
      refine ⟨ha2, fun p loc hm => ?_⟩
      rw [hd2 p loc hm, hd1 p loc hm, List.foldl_cons]

theorem reduceRows_complete (rows : List Row) :
    ∀ (acc : Locales), IsLocales acc → (∀ r ∈ rows, RowMapped r) →
      ∃ acc', reduceRows acc rows = some acc' := by
  induction rows with
  | nil => intro acc _ _; exact ⟨acc, rfl⟩
  | cons r rest ih =>
    intro acc hacc hall
    obtain ⟨acc1, hs⟩ := step_complete hacc (hall r (List.mem_cons_self _ _))
    obtain ⟨ha1, _⟩ := step_spec hacc hs
    obtain ⟨acc2, h2⟩ := ih acc1 ha1 (fun r' hr => hall r' (List.mem_cons_of_mem _ hr))
    exact ⟨acc2, by simp [reduceRows, hs, h2]⟩

theorem reduceRows_append (pre rest : List Row) :
    ∀ (acc : Locales), reduceRows acc (pre ++ rest) =
      (reduceRows acc pre).bind (fun a => reduceRows a rest) := by
  induction pre with
  | nil => intro acc; rfl
  | cons r pre ih =>
    intro acc
    simp only [List.cons_append, reduceRows]
    cases step acc r with
    | none => rfl
    | some acc1 => exact ih acc1

theorem step_eq_none_of_unmapped {acc : Locales} {row : Row} {p : Nat}
    (hacc : IsLocales acc) (hkey : cell row 0 ≠ "") (hp : p ≠ 0)
    (hunmapped : ∀ loc, (p, loc) ∉ localeMapping) (hcell : cell row p ≠ "") :
    step acc row = none := by
  rw [step_of_key acc row hkey]
  apply forEntries_fail _ row 0 acc hacc
  rw [cell_eq_cellFrom] at hcell
  refine ⟨(p, cellFrom 0 row p), mem_entriesFrom row 0 p hcell, hp, hcell, ?_⟩
  cases hl : localeMapping.lookup p with
  | none => rfl
  | some loc => exact absurd ((mapped_iff p loc).mpr hl) (hunmapped loc)

/-! ## Entries of a document after a sequence of rows -/

theorem getProp_writeRow (p : Nat) (d : Doc) (row : Row) (k : String)
    (hk : k ≠ "__proto__") :
    getProp (writeRow p d row) k = if Populates row p k then some (cell row p) else getProp d k := by
  unfold writeRow Populates
  by_cases h0 : cell row 0 = ""
  · have : ¬ (cell row 0 = k ∧ k ≠ "" ∧ cell row p ≠ "") := by
      rintro ⟨h1, h2, _⟩; exact h2 (h1 ▸ h0)
    rw [if_neg this, if_neg (by simp [h0])]
  · by_cases hp : cell row p = ""
    · simp [hp]
    · by_cases hkk : cell row 0 = k
      · subst hkk
        simp [h0, hp, getProp_setProp, hk]
      · have hkk2 : ¬ k = cell row 0 := fun h => hkk h.symm
        simp [h0, hp, getProp_setProp, hkk, hkk2]

theorem getProp_foldl_writeRow (p : Nat) (k : String) (hk : k ≠ "__proto__")
    (rows : List Row) :
    ∀ (d : Doc) (v : String), getProp (rows.foldl (writeRow p) d) k = some v ↔
      (∃ pre r post, rows = pre ++ r :: post ∧ Populates r p k ∧ cell r p = v ∧
          ∀ r' ∈ post, ¬ Populates r' p k) ∨
      (getProp d k = some v ∧ ∀ r ∈ rows, ¬ Populates r p k) := by
  induction rows with
  | nil => intro d v; simp
  | cons r rest ih =>
    intro d v
    rw [List.foldl_cons, ih, getProp_writeRow p d r k hk]
    constructor
    · rintro (⟨pre, r0, post, hrows, hpop, hv, hpost⟩ | ⟨hd, hnone⟩)
      · exact Or.inl ⟨r :: pre, r0, post, by simp [hrows], hpop, hv, hpost⟩
      · by_cases hpop : Populates r p k
        · rw [if_pos hpop] at hd
          exact Or.inl ⟨[], r, rest, rfl, hpop, Option.some.inj hd, hnone⟩
        · rw [if_neg hpop] at hd
          refine Or.inr ⟨hd, fun r' hr' => ?_⟩
          rcases List.mem_cons.mp hr' with h | h
          · exact h ▸ hpop
          · exact hnone r' h
    · rintro (⟨pre, r0, post, hrows, hpop, hv, hpost⟩ | ⟨hd, hnone⟩)
      · cases pre with
        | nil =>
          simp only [List.nil_append, List.cons.injEq] at hrows
          obtain ⟨h1, h2⟩ := hrows
          subst h1 h2
          exact Or.inr ⟨by rw [if_pos hpop, hv], hpost⟩
        | cons r1 pre1 =>
          simp only [List.cons_append, List.cons.injEq] at hrows
          exact Or.inl ⟨pre1, r0, post, hrows.2, hpop, hv, hpost⟩
      · have hr : ¬ Populates r p k := hnone r (List.mem_cons_self _ _)
        exact Or.inr ⟨by rw [if_neg hr]; exact hd,
          fun r' hr' => hnone r' (List.mem_cons_of_mem _ hr')⟩

theorem isSome_foldl_writeRow (p : Nat) (k : String) (hk : k ≠ "__proto__")
    (rows : List Row) :
    ∀ (d : Doc), (getProp (rows.foldl (writeRow p) d) k).isSome = true ↔
      (∃ r ∈ rows, Populates r p k) ∨ (getProp d k).isSome = true := by
  induction rows with
  | nil => intro d; simp
  | cons r rest ih =>
    intro d
    rw [List.foldl_cons, ih, getProp_writeRow p d r k hk]
    by_cases hpop : Populates r p k
    · simp [hpop]
    · simp [hpop]

theorem foldl_writeRow_of_unpopulated (p : Nat) (rows : List Row) :
    ∀ (d : Doc), (∀ r ∈ rows, ¬ (cell r 0 ≠ "" ∧ cell r p ≠ "")) →
      rows.foldl (writeRow p) d = d := by
  induction rows with
  | nil => intro d _; rfl
  | cons r rest ih =>
    intro d h
    have hr := h r (List.mem_cons_self _ _)
    rw [List.foldl_cons, show writeRow p d r = d from by simp only [writeRow, if_neg hr]]
    exact ih d (fun r' hr' => h r' (List.mem_cons_of_mem _ hr'))

/-! ## Finalisation -/

theorem getProp_tagLocales (acc : Locales) (loc : String) :
    getProp (tagLocales acc) loc = (getProp acc loc).map (fun d => setProp d "localeCode" loc) := by
  induction acc with
  | nil => simp [tagLocales, getProp]
  | cons e rest ih =>
    obtain ⟨k0, d0⟩ := e
    by_cases h : k0 = loc
    · simp [tagLocales, getProp, h]
    · simpa [tagLocales, getProp, h] using ih

theorem mem_values_of_getProp {α : Type} (o : List (String × α)) (k : String) (v : α)
    (h : getProp o k = some v) : v ∈ o.map Prod.snd := by
  induction o with
  | nil => simp [getProp] at h
  | cons e rest ih =>
    obtain ⟨k0, v0⟩ := e
    by_cases h0 : k0 = k
    · simp [getProp, h0] at h
      simp [h]
    · simp only [getProp, h0, if_false] at h
      exact List.mem_cons_of_mem _ (ih h)

theorem getProp_localeCode (d : Doc) (loc : String) :
    getProp (setProp d "localeCode" loc) "localeCode" = some loc := by
  rw [getProp_setProp]
  simp

theorem finalise_localeCode (acc : Locales) :
    (finalise acc).map (fun d => getProp d "localeCode") = (acc.map Prod.fst).map some := by
  simp [finalise, tagLocales, Function.comp_def, getProp_localeCode]

/-! ## The row ingestor -/

theorem regexSplit_of_not_mem (l : List Char) (h : '\n' ∉ l) : regexSplit l = [l] := by
  induction l with
  | nil => rfl
  | cons c cs ih =>
    have hc : c ≠ '\n' := fun e => h (by simp [e])
    have hcs : '\n' ∉ cs := fun e => h (List.mem_cons_of_mem _ e)
    have hhead : cs.head? ≠ some '\n' := by
      intro e
      cases cs with
      | nil => simp at e
      | cons c' cs' =>
        simp only [List.head?_cons, Option.some.injEq] at e
        exact hcs (by simp [e])
    simp [regexSplit, hc, hhead, ih hcs]

theorem regexSplit_append (l rest : List Char) (h : '\n' ∉ l) :
    regexSplit (l ++ '\n' :: rest) = dropTrailingCR l :: regexSplit rest := by
  induction l with
  | nil => simp [regexSplit, dropTrailingCR]
  | cons c cs ih =>
    have hc : c ≠ '\n' := fun e => h (by simp [e])
    have hcs : '\n' ∉ cs := fun e => h (List.mem_cons_of_mem _ e)
    cases cs with
    | nil =>
      by_cases hr : c = '\r'
      · subst hr
        simp [regexSplit, dropTrailingCR]
      · simp [regexSplit, dropTrailingCR, hc, hr]
    | cons c' cs' =>
      have hc' : c' ≠ '\n' := fun e => hcs (by simp [e])
      have ih' := ih hcs
      simp only [List.cons_append] at ih' ⊢
      rw [regexSplit, if_neg hc, if_neg (by simp [hc']), ih']
      simp [dropTrailingCR]

theorem regexSplit_joinLines (ls : List (List Char)) (hne : ls ≠ [])
    (hnl : ∀ l ∈ ls, '\n' ∉ l) : regexSplit (joinLines ls) = stripCRs ls := by
  induction ls with
  | nil => exact absurd rfl hne
  | cons l rest ih =>
    cases rest with
    | nil => exact regexSplit_of_not_mem l (hnl l (by simp))
    | cons l' rest' =>
      simp only [joinLines, stripCRs]
      rw [regexSplit_append _ _ (hnl l (by simp)),
        ih (by simp) (fun x hx => hnl x (List.mem_cons_of_mem _ hx))]

theorem length_stripCRs (ls : List (List Char)) : (stripCRs ls).length = ls.length := by
  induction ls with
  | nil => rfl
  | cons l rest ih =>
    cases rest with
    | nil => rfl
    | cons l' rest' => simp only [stripCRs, List.length_cons] at ih ⊢; rw [ih]

theorem dropTrailingCR_of_no_cr (l : List Char) (h : l.getLast? ≠ some '\r') :
    dropTrailingCR l = l := by
  induction l with
  | nil => rfl
  | cons c cs ih =>
    cases cs with
    | nil =>
      have hc : c ≠ '\r' := fun e => h (by simp [e])
      simp [dropTrailingCR, hc]
    | cons c' cs' =>
      have h' : (c' :: cs').getLast? ≠ some '\r' := by
        simpa [List.getLast?_cons_cons] using h
      simp only [dropTrailingCR, ih h']

theorem stripCRs_of_no_crlf (ls : List (List Char))
    (h : ∀ l ∈ ls.dropLast, l.getLast? ≠ some '\r') : stripCRs ls = ls := by
  induction ls with
  | nil => rfl
  | cons l rest ih =>
    cases rest with
    | nil => rfl
    | cons l' rest' =>
      have h1 : l.getLast? ≠ some '\r' := h l (by simp [List.dropLast])
      have h2 : ∀ x ∈ (l' :: rest').dropLast, x.getLast? ≠ some '\r' :=
        fun x hx => h x (by simp only [List.dropLast_cons₂]; exact List.mem_cons_of_mem _ hx)
      simp only [stripCRs, dropTrailingCR_of_no_cr l h1, ih h2]

theorem joinLines_eq_nil (ls : List (List Char)) (hne : ls ≠ []) (h : joinLines ls = []) :
    ls = [[]] := by
  cases ls with
  | nil => exact absurd rfl hne
  | cons l rest =>
    cases rest with
    | nil => simp only [joinLines] at h; rw [h]
    | cons l' rest' => simp [joinLines] at h

theorem flatten_intersperse (ls : List (List Char)) :
    (List.intersperse ['\n'] ls).flatten = joinLines ls := by
  induction ls with
  | nil => rfl
  | cons l rest ih =>
    cases rest with
    | nil => simp [joinLines]
    | cons l' rest' =>
      rw [List.intersperse_cons₂, List.flatten_cons, List.flatten_cons, ih]
      simp [joinLines]

end ProcessTranslations

/-! ## The claims -/

namespace ProcessTranslations

/-- C1 (as amended). Folding the aggregation step from the initial documents over any
rows whose non-empty cells outside column 0 all lie at mapped positions completes, and
for every mapped position `p` with locale `loc` and every key `k` other than
`"localeCode"` and `"__proto__"`, the final document of `loc` has an entry for `k` iff
some row has the non-empty key cell `k` and a non-empty cell at `p`; its value is the
cell at `p` of the last such row. -/
theorem aggregate_entries (rows : List Row) (hrows : ∀ r ∈ rows, RowMapped r) :
    ∃ acc, reduceRows locales rows = some acc ∧ run rows = some (finalise acc) ∧
      ∀ p loc, (p, loc) ∈ localeMapping →
        ∃ d, getProp (tagLocales acc) loc = some d ∧ d ∈ finalise acc ∧
          ∀ k, k ≠ "localeCode" → k ≠ "__proto__" →
            ((getProp d k).isSome = true ↔ ∃ r ∈ rows, Populates r p k) ∧
            ∀ v, getProp d k = some v ↔
              ∃ pre r post, rows = pre ++ r :: post ∧ Populates r p k ∧ cell r p = v ∧
                ∀ r' ∈ post, ¬ Populates r' p k := by
  obtain ⟨acc, hacc⟩ := reduceRows_complete rows locales isLocales_locales hrows
  obtain ⟨hl, hd⟩ := reduceRows_spec rows locales acc isLocales_locales hacc
  refine ⟨acc, hacc, by simp [run, hacc], fun p loc hm => ?_⟩
  have hg : getProp (tagLocales acc) loc = some (setProp (docOf acc loc) "localeCode" loc) := by
    rw [getProp_tagLocales, getProp_of_isLocales hl (mem_localeNames hm)]; rfl
  refine ⟨_, hg, mem_values_of_getProp _ _ _ hg, fun k hk1 hk2 => ?_⟩
  have hget : getProp (setProp (docOf acc loc) "localeCode" loc) k =
      getProp (rows.foldl (writeRow p) []) k := by
    rw [getProp_setProp, hd p loc hm, docOf_locales]
    simp [hk1]
  rw [hget]
  constructor
  · rw [isSome_foldl_writeRow p k hk2]
    simp [getProp]
  · intro v
    rw [getProp_foldl_writeRow p k hk2]
    simp [getProp]

set_option maxRecDepth 1000000 in
/-- Witness for C1: two rows with the key `greeting`, the second overwriting `am`. -/
theorem aggregate_entries_witness :
    (∀ r ∈ [["greeting", "Hello", "Marhaba"], ["greeting", "Hi", ""]], RowMapped r) ∧
    ∃ acc, reduceRows locales [["greeting", "Hello", "Marhaba"], ["greeting", "Hi", ""]]
        = some acc ∧
      run [["greeting", "Hello", "Marhaba"], ["greeting", "Hi", ""]] = some (finalise acc) ∧
      ∀ p loc, (p, loc) ∈ localeMapping →
        ∃ d, getProp (tagLocales acc) loc = some d ∧ d ∈ finalise acc ∧
          ∀ k, k ≠ "localeCode" → k ≠ "__proto__" →
            ((getProp d k).isSome = true ↔
              ∃ r ∈ [["greeting", "Hello", "Marhaba"], ["greeting", "Hi", ""]],
                Populates r p k) ∧
            ∀ v, getProp d k = some v ↔
              ∃ pre r post,
                [["greeting", "Hello", "Marhaba"], ["greeting", "Hi", ""]] = pre ++ r :: post ∧
                Populates r p k ∧ cell r p = v ∧ ∀ r' ∈ post, ¬ Populates r' p k :=
  ⟨by decide, aggregate_entries _ (by decide)⟩

set_option maxRecDepth 1000000 in
/-- Counterexample to C1 as stated: the key `__proto__` differs from `localeCode`, the
row `["__proto__", "x"]` has it as key cell with a non-empty cell at the mapped
position 1, and yet the final document of `am` has no entry for it. -/
theorem proto_key_dropped :
    (∀ r ∈ [["__proto__", "x"]], RowMapped r) ∧ (1, "am") ∈ localeMapping ∧
    "__proto__" ≠ "localeCode" ∧
    (∃ r ∈ [["__proto__", "x"]], Populates r 1 "__proto__") ∧
    reduceRows locales [["__proto__", "x"]] = some locales ∧
    getProp (tagLocales locales) "am" = some [("localeCode", "am")] ∧
    getProp [("localeCode", "am")] "__proto__" = none := by
  decide

/-- C2 (as amended). For every accumulator of locale documents and every row with a
non-empty key cell, a non-empty cell at a position that is neither the key column nor
a position of `localeMapping` makes the aggregation step fail: it returns no
documents, and a run whose rows contain such a row emits no document. -/
theorem step_fails_on_unmapped_cell (acc : Locales) (row : Row) (p : Nat)
    (hacc : IsLocales acc) (hkey : cell row 0 ≠ "") (hp : p ≠ 0)
    (hunmapped : ∀ loc, (p, loc) ∉ localeMapping) (hcell : cell row p ≠ "") :
    step acc row = none ∧ ∀ pre post, run (pre ++ row :: post) = none := by
  refine ⟨step_eq_none_of_unmapped hacc hkey hp hunmapped hcell, fun pre post => ?_⟩
  rw [run, reduceRows_append]
  cases hpre : reduceRows locales pre with
  | none => rfl
  | some acc1 =>
    obtain ⟨hacc1, _⟩ := reduceRows_spec pre locales acc1 isLocales_locales hpre
    simp [reduceRows, step_eq_none_of_unmapped hacc1 hkey hp hunmapped hcell]

set_option maxRecDepth 1000000 in
/-- Witness for C2 (amended): key `k`, blank cells at 1..52, `x` at position 53. -/
theorem step_fails_on_unmapped_cell_witness :
    IsLocales locales ∧ cell ("k" :: (List.replicate 52 "" ++ ["x"])) 0 ≠ "" ∧
    (∀ loc, (53, loc) ∉ localeMapping) ∧
    cell ("k" :: (List.replicate 52 "" ++ ["x"])) 53 ≠ "" ∧
    step locales ("k" :: (List.replicate 52 "" ++ ["x"])) = none ∧
    ∀ pre post, run (pre ++ ("k" :: (List.replicate 52 "" ++ ["x"])) :: post) = none :=
  have h : ∀ loc, (53, loc) ∉ localeMapping := fun loc hm => by
    have h1 := (mapped_iff 53 loc).mp hm
    have h2 : localeMapping.lookup 53 = none := by decide
    rw [h2] at h1
    cases h1
  ⟨by decide, by decide, h, by decide,
    step_fails_on_unmapped_cell locales _ 53 (by decide) (by decide) (by decide) h (by decide)⟩

set_option maxRecDepth 1000000 in
/-- Counterexample to C2 as stated: with `x` at the unmapped position 53 the step
fails, whereas with that cell empty it returns the documents. -/
theorem unmapped_cell_not_ignored :
    IsLocales locales ∧ localeMapping.lookup 53 = none ∧
    cell ("k" :: (List.replicate 52 "" ++ ["x"])) 0 = "k" ∧
    cell ("k" :: (List.replicate 52 "" ++ ["x"])) 53 = "x" ∧
    step locales ("k" :: (List.replicate 52 "" ++ ["x"])) = none ∧
    step locales ("k" :: (List.replicate 52 "" ++ [""])) = some locales := by
  decide

/-- C3. For every accumulator and every row whose key cell (column 0) is empty or
absent, the aggregation step returns the accumulator unchanged, whatever the other
cells contain. -/
theorem step_ignores_row_without_key (acc : Locales) (row : Row)
    (hkey : row[0]? = none ∨ row[0]? = some "") : step acc row = some acc := by
  apply step_of_blank_key
  rcases hkey with h | h
  · cases row with
    | nil => rfl
    | cons c cs => simp at h
  · cases row with
    | nil => rfl
    | cons c cs =>
      have hc : c = "" := by simpa using h
      simp [cell, hc]

set_option maxRecDepth 1000000 in
/-- Witness for C3: the row `["", "X", "Y"]` on the initial documents. -/
theorem step_ignores_row_without_key_witness :
    step locales ["", "X", "Y"] = some locales :=
  step_ignores_row_without_key locales ["", "X", "Y"] (Or.inr rfl)

/-- C4. Blank-preserves-prior: if the document of the locale mapped from position `p`
holds `v` under `k` and a row with key cell `k` has an empty or absent cell at `p`, its
other non-empty cells lying at mapped positions, then the step completes and the
document still holds `v` under `k`. -/
theorem blank_preserves_prior (acc : Locales) (row : Row) (p : Nat) (loc k v : String)
    (d : Doc) (hacc : IsLocales acc) (hm : (p, loc) ∈ localeMapping)
    (hd : getProp acc loc = some d) (hv : getProp d k = some v)
    (_hk : cell row 0 = k) (hblank : cell row p = "") (hrow : RowMapped row) :
    ∃ acc' d', step acc row = some acc' ∧ getProp acc' loc = some d' ∧
      getProp d' k = some v := by
  obtain ⟨acc', hs⟩ := step_complete hacc hrow
  obtain ⟨hl, hdoc⟩ := step_spec hacc hs
  refine ⟨acc', docOf acc' loc, hs, getProp_of_isLocales hl (mem_localeNames hm), ?_⟩
  rw [hdoc p loc hm]
  have : docOf acc loc = d := by simp [docOf, hd]
  simp [writeRow, hblank, this, hv]

set_option maxRecDepth 1000000 in
/-- Witness for C4: `ar` holds `Marhaba` under `greeting`; the row leaves `ar` blank. -/
theorem blank_preserves_prior_witness :
    ∃ acc' d', step (putProp locales "ar" [("greeting", "Marhaba")]) ["greeting", "Hi", ""]
        = some acc' ∧ getProp acc' "ar" = some d' ∧ getProp d' "greeting" = some "Marhaba" :=
  blank_preserves_prior (putProp locales "ar" [("greeting", "Marhaba")]) ["greeting", "Hi", ""]
    2 "ar" "greeting" "Marhaba" [("greeting", "Marhaba")]
    (by decide) (by decide) (by decide) (by decide) (by decide) (by decide) (by decide)

/-- C5 (as amended). Last-write-wins: for two rows with the same non-empty key `k`
other than `"__proto__"` and non-empty cells at the same mapped position `p`, all other
non-empty cells lying at mapped positions, the two steps complete and leave the
document of the locale of `p` holding the second row's cell under `k`. -/
theorem last_write_wins (acc : Locales) (r1 r2 : Row) (p : Nat) (loc k : String)
    (hacc : IsLocales acc) (hm : (p, loc) ∈ localeMapping)
    (_hk1 : cell r1 0 = k) (hk2 : cell r2 0 = k) (hk : k ≠ "")
    (_hv1 : cell r1 p ≠ "") (hv2 : cell r2 p ≠ "")
    (hr1 : RowMapped r1) (hr2 : RowMapped r2) (hproto : k ≠ "__proto__") :
    ∃ acc1 acc2 d, step acc r1 = some acc1 ∧ step acc1 r2 = some acc2 ∧
      getProp acc2 loc = some d ∧ getProp d k = some (cell r2 p) := by
  obtain ⟨acc1, hs1⟩ := step_complete hacc hr1
  obtain ⟨hl1, _⟩ := step_spec hacc hs1
  obtain ⟨acc2, hs2⟩ := step_complete hl1 hr2
  obtain ⟨hl2, hdoc2⟩ := step_spec hl1 hs2
  refine ⟨acc1, acc2, docOf acc2 loc, hs1, hs2,
    getProp_of_isLocales hl2 (mem_localeNames hm), ?_⟩
  rw [hdoc2 p loc hm, getProp_writeRow p _ r2 k hproto]
  simp [Populates, hk2, hk, hv2]

set_option maxRecDepth 1000000 in
/-- Witness for C5: `Hello` then `Hi` under `greeting` at position 6 (`en`). -/
theorem last_write_wins_witness :
    ∃ acc1 acc2 d,
      step locales ["greeting", "", "", "", "", "", "Hello"] = some acc1 ∧
      step acc1 ["greeting", "", "", "", "", "", "Hi"] = some acc2 ∧
      getProp acc2 "en" = some d ∧
      getProp d "greeting" = some (cell ["greeting", "", "", "", "", "", "Hi"] 6) :=
  last_write_wins locales ["greeting", "", "", "", "", "", "Hello"]
    ["greeting", "", "", "", "", "", "Hi"] 6 "en" "greeting"
    (by decide) (by decide) (by decide) (by decide) (by decide) (by decide) (by decide)
    (by decide) (by decide) (by decide)

set_option maxRecDepth 1000000 in
/-- Counterexample to C5 as stated: two rows with the key `__proto__` and the cells `a`
then `b` at the mapped position 1; both steps complete and the document of `am` holds
nothing under `__proto__`. -/
theorem proto_key_last_write_lost :
    IsLocales locales ∧ (1, "am") ∈ localeMapping ∧
    RowMapped ["__proto__", "a"] ∧ RowMapped ["__proto__", "b"] ∧
    Populates ["__proto__", "a"] 1 "__proto__" ∧ Populates ["__proto__", "b"] 1 "__proto__" ∧
    step locales ["__proto__", "a"] = some locales ∧
    step locales ["__proto__", "b"] = some locales ∧
    getProp locales "am" = some [] ∧ getProp ([] : Doc) "__proto__" = none := by
  decide

/-- C6. Whenever aggregation completes, finalisation emits exactly one document per
entry of `localeMapping` (52 documents), the `localeCode` fields of the emitted
documents being the mapped locale identifiers in table order; the document of a
locale that no row populated consists of the `localeCode` field alone, and on the
empty row sequence every emitted document does. -/
theorem finalise_one_document_per_locale (rows : List Row) (acc : Locales)
    (h : reduceRows locales rows = some acc) :
    run rows = some (finalise acc) ∧
    (finalise acc).length = localeMapping.length ∧ localeMapping.length = 52 ∧
    (finalise acc).map (fun d => getProp d "localeCode")
      = localeMapping.map (fun e => some e.2) ∧
    (∀ p loc, (p, loc) ∈ localeMapping →
      (∀ r ∈ rows, ¬ (cell r 0 ≠ "" ∧ cell r p ≠ "")) →
      getProp (tagLocales acc) loc = some [("localeCode", loc)] ∧
      [("localeCode", loc)] ∈ finalise acc) ∧
    run [] = some (localeMapping.map (fun e => [("localeCode", e.2)])) := by
  obtain ⟨hl, hd⟩ := reduceRows_spec rows locales acc isLocales_locales h
  have hcodes := finalise_localeCode acc
  rw [hl] at hcodes
  have hlen : (finalise acc).length = localeMapping.length := by
    have := congrArg List.length hcodes
    simpa [localeNames] using this
  refine ⟨by simp [run, h], hlen, rfl, by simpa [localeNames] using hcodes, ?_, ?_⟩
  · intro p loc hm hnone
    have hg : getProp (tagLocales acc) loc = some [("localeCode", loc)] := by
      rw [getProp_tagLocales, getProp_of_isLocales hl (mem_localeNames hm), hd p loc hm,
        docOf_locales, foldl_writeRow_of_unpopulated p rows [] hnone]
      simp [setProp, getProp]
    exact ⟨hg, mem_values_of_getProp _ _ _ hg⟩
  · simp only [run, reduceRows, Option.map_some', locales_eq, finalise, tagLocales,
      localeNames, List.map_map]
    congr 1

set_option maxRecDepth 1000000 in
/-- Witness for C6: one row that populates `am` only. -/
theorem finalise_one_document_per_locale_witness :
    reduceRows locales [["greeting", "Hello"]]
      = some (putProp locales "am" [("greeting", "Hello")]) ∧
    (finalise (putProp locales "am" [("greeting", "Hello")])).length = 52 ∧
    (∀ p loc, (p, loc) ∈ localeMapping →
      (∀ r ∈ [["greeting", "Hello"]], ¬ (cell r 0 ≠ "" ∧ cell r p ≠ "")) →
      getProp (tagLocales (putProp locales "am" [("greeting", "Hello")])) loc
        = some [("localeCode", loc)] ∧
      [("localeCode", loc)] ∈ finalise (putProp locales "am" [("greeting", "Hello")])) :=
  have h := finalise_one_document_per_locale [["greeting", "Hello"]]
    (putProp locales "am" [("greeting", "Hello")]) (by decide)
  ⟨by decide, h.2.1.trans h.2.2.1, h.2.2.2.2.1⟩

/-- C7 (as amended). For lines `l_0, ..., l_m` none of which contains a newline, the
stage `split('\n')` / `drop(n)` / `intersperse('\n')` applied to the text
`l_0 \n ... \n l_m` hands the parser the text `k_n \n ... \n k_m`, where `k_i` is `l_i`
without the carriage return directly before its newline, if any (and `k_m = l_m`); for
a non-empty text the chunks are `k_n, \n, k_(n+1), ..., \n, k_m`; nothing at all is handed
over when `n > m`; and when no carriage return stands directly before a newline the
text handed over is `l_n \n ... \n l_m`, every remaining character unchanged. -/
theorem ingest_drops_leading_lines (n : Nat) (ls : List (List Char)) (hne : ls ≠ [])
    (hnl : ∀ l ∈ ls, '\n' ∉ l) :
    parserInput n (joinLines ls) = joinLines ((stripCRs ls).drop n) ∧
    (joinLines ls ≠ [] →
      ingest n (joinLines ls) = List.intersperse ['\n'] ((stripCRs ls).drop n)) ∧
    (ls.length ≤ n → ingest n (joinLines ls) = [] ∧ parserInput n (joinLines ls) = []) ∧
    ((∀ l ∈ ls.dropLast, l.getLast? ≠ some '\r') →
      parserInput n (joinLines ls) = joinLines (ls.drop n)) := by
  by_cases he : joinLines ls = []
  · have hls : ls = [[]] := joinLines_eq_nil ls hne he
    subst hls
    have h1 : ingest n (joinLines [[]]) = [] := by simp [ingest, split, joinLines]
    have h2 : parserInput n (joinLines [[]]) = [] := by rw [parserInput, h1]; rfl
    have h3 : joinLines (([[]] : List (List Char)).drop n) = [] := by
      cases n with
      | zero => rfl
      | succ k => simp [joinLines]
    have h4 : stripCRs [[]] = [[]] := rfl
    exact ⟨by rw [h2, h4, h3], fun h => absurd he h, fun _ => ⟨h1, h2⟩,
      fun _ => by rw [h2, h3]⟩
  · have h1 : ingest n (joinLines ls) = List.intersperse ['\n'] ((stripCRs ls).drop n) := by
      simp [ingest, split, he, regexSplit_joinLines ls hne hnl]
    have h2 : parserInput n (joinLines ls) = joinLines ((stripCRs ls).drop n) := by
      rw [parserInput, h1, flatten_intersperse]
    refine ⟨h2, fun _ => h1, fun hlen => ?_, fun hcr => ?_⟩
    · have h3 : (stripCRs ls).drop n = [] :=
        List.drop_eq_nil_of_le (by rw [length_stripCRs]; exact hlen)
      rw [h2, h1, h3]
      exact ⟨rfl, rfl⟩
    · rw [h2, stripCRs_of_no_crlf ls hcr]

/-- Witness for C7 (amended): the text `a\r\nb,"c\nd"` with one leading line discarded. -/
theorem ingest_drops_leading_lines_witness :
    parserInput IGNORE_ROWS (joinLines [['a', '\r'], ['b', ',', '"', 'c'], ['d', '"']])
      = ['b', ',', '"', 'c', '\n', 'd', '"'] ∧
    ingest IGNORE_ROWS (joinLines [['a', '\r'], ['b', ',', '"', 'c'], ['d', '"']])
      = [['b', ',', '"', 'c'], ['\n'], ['d', '"']] :=
  have h := ingest_drops_leading_lines IGNORE_ROWS
    [['a', '\r'], ['b', ',', '"', 'c'], ['d', '"']] (by decide) (by decide)
  ⟨h.1, h.2.1 (by decide)⟩

/-- Counterexample to C7 as stated: on the text `a\r\nb\r\nc` with one leading line
discarded the parser is handed `b\nc`, not the remaining text `b\r\nc`: the carriage
return before the newline is not passed through. -/
theorem crlf_not_passed_through :
    (∀ l ∈ [['a', '\r'], ['b', '\r'], ['c']], '\n' ∉ l) ∧
    parserInput IGNORE_ROWS (joinLines [['a', '\r'], ['b', '\r'], ['c']]) = ['b', '\n', 'c'] ∧
    joinLines ([['a', '\r'], ['b', '\r'], ['c']].drop IGNORE_ROWS) = ['b', '\r', '\n', 'c'] ∧
    parserInput IGNORE_ROWS (joinLines [['a', '\r'], ['b', '\r'], ['c']])
      ≠ joinLines ([['a', '\r'], ['b', '\r'], ['c']].drop IGNORE_ROWS) := by
  decide

set_option maxRecDepth 1000000 in
/-- C8. In each of the two shipped tables no two column positions map to the same
locale identifier, and the initial `locales` object has as many documents as the
table has entries (52 and 45). -/
theorem localeMapping_locales_distinct :
    (localeMapping.map Prod.snd).Nodup ∧ locales.length = localeMapping.length ∧
    localeMapping.length = 52 ∧
    (DemoReadCsvMain.localeMapping.map Prod.snd).Nodup ∧
    DemoReadCsvMain.locales.length = DemoReadCsvMain.localeMapping.length ∧
    DemoReadCsvMain.localeMapping.length = 45 := by
  decide

/-- C10. Whenever aggregation completes, the documents of the finalised object are
those of the mapped locales, and each carries its own locale identifier in
`localeCode`, whatever was stored under the key `localeCode` before; the output
directory derived from it names the document's own locale. -/
theorem localeCode_names_own_locale (rows : List Row) (acc : Locales) (dirname : String)
    (h : reduceRows locales rows = some acc) :
    (tagLocales acc).map Prod.fst = localeNames ∧
    ∀ e ∈ tagLocales acc, e.2 ∈ finalise acc ∧ getProp e.2 "localeCode" = some e.1 ∧
      outputDir dirname e.2 = dirname ++ "/public/locales/" ++ "/" ++ e.1 := by
  obtain ⟨hl, _⟩ := reduceRows_spec rows locales acc isLocales_locales h
  refine ⟨by simpa [tagLocales, Function.comp_def] using hl, fun e he => ?_⟩
  refine ⟨List.mem_map.mpr ⟨e, he, rfl⟩, ?_⟩
  obtain ⟨e0, _, rfl⟩ := List.mem_map.mp he
  simp [outputDir, getProp_localeCode]

set_option maxRecDepth 1000000 in
/-- Witness for C10: a row whose key cell is `localeCode`. -/
theorem localeCode_names_own_locale_witness :
    reduceRows locales [["localeCode", "X"]]
      = some (putProp locales "am" [("localeCode", "X")]) ∧
    getProp (tagLocales (putProp locales "am" [("localeCode", "X")])) "am"
      = some [("localeCode", "am")] ∧
    ∀ e ∈ tagLocales (putProp locales "am" [("localeCode", "X")]),
      e.2 ∈ finalise (putProp locales "am" [("localeCode", "X")]) ∧
      getProp e.2 "localeCode" = some e.1 ∧
      outputDir "/srv" e.2 = "/srv" ++ "/public/locales/" ++ "/" ++ e.1 :=
  ⟨by decide, by decide,
    (localeCode_names_own_locale [["localeCode", "X"]]
      (putProp locales "am" [("localeCode", "X")]) "/srv" (by decide)).2⟩

end ProcessTranslations

namespace DemoReadCsvMain

open ProcessTranslations (entriesFrom Locales)

/-- C9. In the variant, two rows that differ only in the cell at position 0 give the
same outcome of the aggregation step on every accumulator: the same documents or the
same failure. -/
theorem variant_step_ignores_column_zero (acc : Locales) (c c' : String)
    (rest : List String) : step acc (c :: rest) = step acc (c' :: rest) := by
  unfold step
  cases rest with
  | nil => rfl
  | cons k cs => simp [entriesFrom, forEntries]

end DemoReadCsvMain
